import Mathlib

/-!
Shallow embedding of `src/QShortcutEditor.py` (PySide2 shortcut viewer/editor).

Modelling conventions:
* A `QKeySequence` is opaque with a canonical string form; it is modelled as a
  structure wrapping that string (`KeySeq`), since the code compares and stores
  key sequences only up to their canonical form.
* A `QAction` is a mutable object; objects are modelled by a heap
  `Nat → Action` indexed by object identity, and Python references are the
  `Nat` identities.  `action.setShortcuts` is a heap update.
* Python raising an exception that is not caught is modelled by `Except Unit`;
  a caught exception (`try ... except ... : pass`) is modelled by the handled
  branch.
* Python `dict` is modelled by an association list with insert-or-overwrite
  (`dictInsert`), preserving first-insertion order like CPython dicts.
* `list(set(xs))` (identity-based deduplication with unspecified order, line
  104 of the source) is modelled by `List.dedup`; `list.sort(key=...)`
  (Timsort, a stable sort) is modelled by the stable `List.insertionSort`
  keyed the same way.
* Python string comparison is lexicographic on code points; it is modelled by
  `strLt` over `String.data`, and Python list-of-strings comparison by
  `lexLe`.
-/

namespace QShortcutEditor

/-- Canonical string form of a `QKeySequence` (source: `x.toString()`). -/
structure KeySeq where
  s : String
deriving DecidableEq

/-- Canonical string form, source `QKeySequence.toString`. -/
def KeySeq.toString (k : KeySeq) : String := k.s

/-- The observable part of a `QAction`: descriptive texts and the current
binding list (`action.shortcuts()`, first entry primary, rest alternates). -/
structure Action where
  toolTip : String
  statusTip : String
  shortcuts : List KeySeq
deriving DecidableEq

/-- Strict lexicographic order on character lists, mirroring Python's string
comparison (code-point lexicographic, shorter prefix first). -/
def ltCL : List Char → List Char → Bool
  | [], [] => false
  | [], _ :: _ => true
  | _ :: _, [] => false
  | a :: as, b :: bs => if a < b then true else if b < a then false else ltCL as bs

theorem ltCL_irrefl (l : List Char) : ltCL l l = false := by
  induction l with
  | nil => rfl
  | cons a as ih => simp [ltCL, lt_irrefl, ih]

theorem ltCL_cons (a b : Char) (as bs : List Char) :
    ltCL (a :: as) (b :: bs) = true ↔ a < b ∨ (a = b ∧ ltCL as bs = true) := by
  by_cases hab : a < b
  · simp [ltCL, hab]
  · by_cases hba : b < a
    · have hne : ¬ a = b := fun h => by subst h; exact hba.false
      simp [ltCL, hab, hba, hne]
    · have heq : a = b := le_antisymm (not_lt.mp hba) (not_lt.mp hab)
      simp [ltCL, hab, hba, heq]

theorem ltCL_trans {x y z : List Char} (h1 : ltCL x y = true) (h2 : ltCL y z = true) :
    ltCL x z = true := by
  induction x generalizing y z with
  | nil =>
    cases y with
    | nil => exact h2
    | cons b bs =>
      cases z with
      | nil => simp [ltCL] at h2
      | cons c cs => rfl
  | cons a as ih =>
    cases y with
    | nil => simp [ltCL] at h1
    | cons b bs =>
      cases z with
      | nil => simp [ltCL] at h2
      | cons c cs =>
        rcases (ltCL_cons a b as bs).mp h1 with hab | ⟨hab, hrest⟩ <;>
          rcases (ltCL_cons b c bs cs).mp h2 with hbc | ⟨hbc, hrest2⟩
        · exact (ltCL_cons a c as cs).mpr (Or.inl (lt_trans hab hbc))
        · exact (ltCL_cons a c as cs).mpr (Or.inl (hbc ▸ hab))
        · exact (ltCL_cons a c as cs).mpr (Or.inl (hab ▸ hbc))
        · exact (ltCL_cons a c as cs).mpr (Or.inr ⟨hab.trans hbc, ih hrest hrest2⟩)

theorem ltCL_conn {x y : List Char} (h1 : ltCL x y = false) (h2 : ltCL y x = false) :
    x = y := by
  induction x generalizing y with
  | nil =>
    cases y with
    | nil => rfl
    | cons b bs => simp [ltCL] at h1
  | cons a as ih =>
    cases y with
    | nil => simp [ltCL] at h2
    | cons b bs =>
      have hab : ¬ a < b := by
        intro h
        have := (ltCL_cons a b as bs).mpr (Or.inl h)
        rw [h1] at this; exact Bool.false_ne_true this
      have hba : ¬ b < a := by
        intro h
        have := (ltCL_cons b a bs as).mpr (Or.inl h)
        rw [h2] at this; exact Bool.false_ne_true this
      have heq : a = b := le_antisymm (not_lt.mp hba) (not_lt.mp hab)
      have has : ltCL as bs = false := by
        cases hcl : ltCL as bs with
        | false => rfl
        | true =>
          have := (ltCL_cons a b as bs).mpr (Or.inr ⟨heq, hcl⟩)
          rw [h1] at this; exact absurd this Bool.false_ne_true
      have hbs : ltCL bs as = false := by
        cases hcl : ltCL bs as with
        | false => rfl
        | true =>
          have := (ltCL_cons b a bs as).mpr (Or.inr ⟨heq.symm, hcl⟩)
          rw [h2] at this; exact absurd this Bool.false_ne_true
      rw [heq, ih has hbs]

/-- Python string `<`, modelled on the underlying character list. -/
def strLt (a b : String) : Bool := ltCL a.data b.data

theorem strLt_irrefl (a : String) : strLt a a = false := ltCL_irrefl a.data

theorem strLt_trans {a b c : String} (h1 : strLt a b = true) (h2 : strLt b c = true) :
    strLt a c = true := ltCL_trans h1 h2

theorem strLt_conn {a b : String} (h1 : strLt a b = false) (h2 : strLt b a = false) :
    a = b := String.ext (ltCL_conn h1 h2)

/-- Python comparison `xs <= ys` for lists of strings (non-strict lexicographic
order); this is the order induced by the sort key of `_uniq_sort`. -/
def lexLe : List String → List String → Bool
  | [], _ => true
  | _ :: _, [] => false
  | x :: xs, y :: ys => if strLt x y then true else if strLt y x then false else lexLe xs ys

theorem lexLe_refl (l : List String) : lexLe l l = true := by
  induction l with
  | nil => rfl
  | cons x xs ih => simp [lexLe, strLt_irrefl, ih]

theorem lexLe_cons (x y : String) (xs ys : List String) :
    lexLe (x :: xs) (y :: ys) = true ↔
      strLt x y = true ∨ (x = y ∧ lexLe xs ys = true) := by
  cases hxy : strLt x y with
  | true => simp [lexLe, hxy]
  | false =>
    cases hyx : strLt y x with
    | true =>
      have hne : ¬ x = y := by
        intro h; subst h; rw [strLt_irrefl] at hyx; exact Bool.noConfusion hyx
      simp [lexLe, hxy, hyx, hne]
    | false =>
      have heq : x = y := strLt_conn hxy hyx
      subst heq
      simp [lexLe, hxy, strLt_irrefl]

theorem lexLe_total (a b : List String) : lexLe a b = true ∨ lexLe b a = true := by
  induction a generalizing b with
  | nil => exact Or.inl rfl
  | cons x xs ih =>
    cases b with
    | nil => exact Or.inr rfl
    | cons y ys =>
      cases hxy : strLt x y with
      | true => exact Or.inl ((lexLe_cons x y xs ys).mpr (Or.inl hxy))
      | false =>
        cases hyx : strLt y x with
        | true => exact Or.inr ((lexLe_cons y x ys xs).mpr (Or.inl hyx))
        | false =>
          have heq : x = y := strLt_conn hxy hyx
          rcases ih ys with h | h
          · exact Or.inl ((lexLe_cons x y xs ys).mpr (Or.inr ⟨heq, h⟩))
          · exact Or.inr ((lexLe_cons y x ys xs).mpr (Or.inr ⟨heq.symm, h⟩))

theorem lexLe_trans {a b c : List String} (h1 : lexLe a b = true) (h2 : lexLe b c = true) :
    lexLe a c = true := by
  induction a generalizing b c with
  | nil => rfl
  | cons x xs ih =>
    cases b with
    | nil => simp [lexLe] at h1
    | cons y ys =>
      cases c with
      | nil => simp [lexLe] at h2
      | cons z zs =>
        rcases (lexLe_cons x y xs ys).mp h1 with hxy | ⟨hxy, hrest⟩ <;>
          rcases (lexLe_cons y z ys zs).mp h2 with hyz | ⟨hyz, hrest2⟩
        · exact (lexLe_cons x z xs zs).mpr (Or.inl (strLt_trans hxy hyz))
        · exact (lexLe_cons x z xs zs).mpr (Or.inl (hyz ▸ hxy))
        · exact (lexLe_cons x z xs zs).mpr (Or.inl (hxy ▸ hyz))
        · exact (lexLe_cons x z xs zs).mpr (Or.inr ⟨hxy.trans hyz, ih hrest hrest2⟩)

theorem lexLe_nil_right {l : List String} (h : lexLe l [] = true) : l = [] := by
  cases l with
  | nil => rfl
  | cons x xs => simp [lexLe] at h

theorem lexLe_of_eq {a b : List String} (h : a = b) : lexLe a b = true := h ▸ lexLe_refl a

/-- Python `dict` lookup `d[k]` as an `Option` (first matching key; the
`dictInsert` below keeps keys unique, as a `dict` does). -/
def dictLookup {K V : Type} [DecidableEq K] : List (K × V) → K → Option V
  | [], _ => none
  | p :: rest, k => if p.1 = k then some p.2 else dictLookup rest k

/-- Python `dict` assignment `d[k] = v`: overwrite the value in place when the
key is present, otherwise append the new entry (CPython keeps first-insertion
order). -/
def dictInsert {K V : Type} [DecidableEq K] : List (K × V) → K → V → List (K × V)
  | [], k, v => [(k, v)]
  | p :: rest, k, v => if p.1 = k then (k, v) :: rest else p :: dictInsert rest k v

theorem dictLookup_insert_self {K V : Type} [DecidableEq K] (db : List (K × V)) (k : K)
    (v : V) : dictLookup (dictInsert db k v) k = some v := by
  induction db with
  | nil => simp [dictInsert, dictLookup]
  | cons p rest ih =>
    by_cases h : p.1 = k
    · simp [dictInsert, dictLookup, h]
    · simp [dictInsert, dictLookup, h, ih]

theorem dictLookup_insert_ne {K V : Type} [DecidableEq K] (db : List (K × V)) {k k2 : K}
    (v : V) (h : k2 ≠ k) : dictLookup (dictInsert db k v) k2 = dictLookup db k2 := by
  have hks : ¬ k = k2 := fun he => h he.symm
  induction db with
  | nil => simp [dictInsert, dictLookup, hks]
  | cons p rest ih =>
    by_cases hp : p.1 = k
    · simp [dictInsert, dictLookup, hp, hks]
    · by_cases hp2 : p.1 = k2 <;> simp [dictInsert, dictLookup, hp, hp2, ih, h]

/-- Sort key of `_uniq_sort` (source line 109):
`lambda act: [ x.toString() for x in act.shortcuts() ]`. -/
def actKey (heap : Nat → Action) (a : Nat) : List String :=
  ((heap a).shortcuts).map KeySeq.toString

/-- Order in which `_uniq_sort` sorts action references: ascending by
`actKey`, Python list comparison. -/
def shortcutKeyLe (heap : Nat → Action) (a b : Nat) : Prop :=
  lexLe (actKey heap a) (actKey heap b) = true

instance (heap : Nat → Action) : DecidableRel (shortcutKeyLe heap) :=
  fun a b => instDecidableEqBool (lexLe (actKey heap a) (actKey heap b)) true

instance (heap : Nat → Action) : IsTotal Nat (shortcutKeyLe heap) :=
  ⟨fun a b => lexLe_total (actKey heap a) (actKey heap b)⟩

instance (heap : Nat → Action) : IsTrans Nat (shortcutKeyLe heap) :=
  ⟨fun _ _ _ => lexLe_trans⟩

/-- Source `_uniq_sort` (lines 93-110): `actions2 = list(set(self._actions))`
followed by `actions2.sort(key=lambda act: [x.toString() for x in
act.shortcuts()])`.  The identity-based set is modelled by `List.dedup` (the
set's iteration order is unspecified in Python), and the stable Timsort by the
stable `List.insertionSort` over the same key. -/
def uniq_sort (heap : Nat → Action) (actions : List Nat) : List Nat :=
  List.insertionSort (shortcutKeyLe heap) actions.dedup

/-- Source `QShortcutEditor._all_actions` (lines 182-195): candidates are the
actions found under the gui (`children`), filtered by non-empty tooltip when
the `All` checkbox is checked, else by having at least one shortcut. -/
def all_actions (heap : Nat → Action) (children : List Nat) (display_all : Bool) :
    List Nat :=
  if display_all then
    children.filter (fun a => (heap a).toolTip.length > 0)
  else
    children.filter (fun a => (heap a).shortcuts.length > 0)

/-- Source `_hash` (lines 235-239): the diff/restore identity of an action is
the pair `(toolTip, statusTip)`. -/
def hashAction (a : Action) : String × String := (a.toolTip, a.statusTip)

/-- State of a `QShortcutEditor` instance together with the live `QAction`
objects of the host gui.  `heap` is the object store (identity ↦ action),
`children` the identities returned by `self._gui.findChildren(QAction)`,
`actions` the prepared list `self._actions`, `initial_shortcuts` the baseline
snapshot, and `currently_modifying` the single-slot edit state (identity of
the action being edited and the ordinal position of the binding); the
`QKeySequenceEdit` widget held in the Python tuple has no observable state
here, the captured sequence is passed to `modify_shortcut_end` instead. -/
structure EditorState where
  heap : Nat → Action
  children : List Nat
  display_all : Bool
  actions : List Nat
  initial_shortcuts : List ((String × String) × List KeySeq)
  currently_modifying : Option (Nat × Nat)

/-- Source `QShortcutEditor.__init__` lines 176-180: the baseline snapshot, a
dict comprehension over the actions with non-empty tooltip, mapping `_hash(a)`
to `a.shortcuts()` (a later colliding action overwrites an earlier one). -/
def initial_snapshot (heap : Nat → Action) (children : List Nat) :
    List ((String × String) × List KeySeq) :=
  (children.filter (fun a => (heap a).toolTip.length > 0)).foldl
    (fun db a => dictInsert db (hashAction (heap a)) ((heap a).shortcuts)) []

/-- Column headers (source line 68). -/
def columns : List String := ["Shortcut", "Alternate", "Description"]

/-- Source `modify_shortcut` (lines 197-217), the double-click handler.
Editing the description column is refused; a second edit while one is in
progress is ignored (`self.currently_modifying is not None`); otherwise the
action at the clicked row is recorded in the single-slot state together with
the ordinal position `column - self.columns.index('Shortcut')`.  An
out-of-range row would raise `IndexError` in Python (`self._actions[row]`),
modelled by `Except.error`; the GUI only delivers rows of the table, which
always index `self._actions`. -/
def modify_shortcut (st : EditorState) (row column : Nat) : Except Unit EditorState :=
  if column = columns.indexOf ("Description") then .ok st
  else if st.currently_modifying.isSome then .ok st
  else
    match st.actions[row]? with
    | none => .error ()
    | some aid =>
        .ok { st with currently_modifying := some (aid, column - columns.indexOf ("Shortcut")) }

/-- Refresh of `self._actions` done by `_prepare` (lines 112-126 / 259-260):
re-enumerate the candidate actions and `_uniq_sort` them (the table rendering
itself is GUI-only). -/
def prepare_actions (heap : Nat → Action) (children : List Nat) (display_all : Bool) :
    List Nat :=
  uniq_sort heap (all_actions heap children display_all)

/-- Source `modify_shortcut_end` (lines 219-233), the `editingFinished`
handler.  `new_short` is the sequence captured by the `QKeySequenceEdit`.
The recorded position is assigned in a copy of the binding list
(`shorts[column] = new_short`), appending when the index is out of range
(`except IndexError: shorts.append(new_short)`), and applied with
`action.setShortcuts(shorts)`; then `_prepare()` refreshes `self._actions`
and the slot is cleared.  When no edit is in progress the Python code would
raise a `TypeError` unpacking `None`, modelled by `Except.error`.
`rebindList` is the body of the `try`: `shorts[column] = new_short` replaces in
range and raises `IndexError` past the end, where `shorts.append(new_short)`
appends instead. -/
def rebindList (old : List KeySeq) (pos : Nat) (new_short : KeySeq) : List KeySeq :=
  if pos < old.length then old.set pos new_short else old ++ [new_short]

/-- Source `modify_shortcut_end` (lines 219-233), see `rebindList` above. -/
def modify_shortcut_end (st : EditorState) (new_short : KeySeq) : Except Unit EditorState :=
  match st.currently_modifying with
  | none => .error ()
  | some (aid, pos) =>
      let heap2 : Nat → Action := fun n =>
        if n = aid then { st.heap aid with shortcuts := rebindList (st.heap aid).shortcuts pos new_short }
        else st.heap n
      .ok { st with
              heap := heap2
              actions := prepare_actions heap2 st.children st.display_all
              currently_modifying := none }

/-- Body of the `pickle` loop (lines 243-247) over a given suffix of
`self._actions`, accumulating the output dict `db`: the baseline is looked up
with plain indexing `self._initial_shortcuts[h]`, so a missing identity
raises `KeyError` (modelled by `Except.error`); an action whose live binding
list differs from the baseline entry is stored as
`db[h] = [s.toString() for s in a.shortcuts()]`. -/
def pickleGo (heap : Nat → Action) (init : List ((String × String) × List KeySeq))
    (db : List ((String × String) × List String)) :
    List Nat → Except Unit (List ((String × String) × List String))
  | [] => .ok db
  | a :: rest =>
      match dictLookup init (hashAction (heap a)) with
      | none => .error ()
      | some v =>
          pickleGo heap init
            (if (heap a).shortcuts ≠ v then
               dictInsert db (hashAction (heap a)) (((heap a).shortcuts).map KeySeq.toString)
             else db) rest

/-- Source `pickle` (lines 241-248): the mapping of modified shortcuts, from
action identity to the list of string forms of the current bindings. -/
def pickle (st : EditorState) : Except Unit (List ((String × String) × List String)) :=
  pickleGo st.heap st.initial_shortcuts [] st.actions

/-- Body of one `unpickle` iteration (lines 252-257): look the action's
identity up in `db`; on success `a.setShortcuts(db[h])` (Qt converts each
string back to a key sequence), on `KeyError` do nothing. -/
def unpickleStep (heap : Nat → Action) (db : List ((String × String) × List String))
    (a : Nat) : Nat → Action :=
  match dictLookup db (hashAction (heap a)) with
  | some v => fun n => if n = a then { heap a with shortcuts := v.map KeySeq.mk } else heap n
  | none => heap

theorem pickleGo_cons_none {heap : Nat → Action} {init : List ((String × String) × List KeySeq)}
    {db : List ((String × String) × List String)} {a : Nat} {rest : List Nat}
    (h : dictLookup init (hashAction (heap a)) = none) :
    pickleGo heap init db (a :: rest) = .error () := by
  have hu : pickleGo heap init db (a :: rest)
      = match dictLookup init (hashAction (heap a)) with
        | none => .error ()
        | some v =>
            pickleGo heap init
              (if (heap a).shortcuts ≠ v then
                 dictInsert db (hashAction (heap a)) (((heap a).shortcuts).map KeySeq.toString)
               else db) rest := rfl
  rw [hu, h]

theorem pickleGo_cons_some {heap : Nat → Action} {init : List ((String × String) × List KeySeq)}
    {db : List ((String × String) × List String)} {a : Nat} {rest : List Nat}
    {v : List KeySeq} (h : dictLookup init (hashAction (heap a)) = some v) :
    pickleGo heap init db (a :: rest) =
      pickleGo heap init
        (if (heap a).shortcuts ≠ v then
           dictInsert db (hashAction (heap a)) (((heap a).shortcuts).map KeySeq.toString)
         else db) rest := by
  have hu : pickleGo heap init db (a :: rest)
      = match dictLookup init (hashAction (heap a)) with
        | none => .error ()
        | some v2 =>
            pickleGo heap init
              (if (heap a).shortcuts ≠ v2 then
                 dictInsert db (hashAction (heap a)) (((heap a).shortcuts).map KeySeq.toString)
               else db) rest := rfl
  rw [hu, h]

theorem pickleGo_ok {heap : Nat → Action} {init : List ((String × String) × List KeySeq)} :
    ∀ (l : List Nat) (db : List ((String × String) × List String)),
      (∀ a ∈ l, (dictLookup init (hashAction (heap a))).isSome = true) →
      ∃ db2, pickleGo heap init db l = .ok db2 := by
  intro l
  induction l with
  | nil => exact fun db _ => ⟨db, rfl⟩
  | cons c rest ih =>
    intro db h
    obtain ⟨v, hv⟩ := Option.isSome_iff_exists.mp (h c (List.mem_cons_self c rest))
    rw [pickleGo_cons_some hv]
    exact ih _ (fun a ha => h a (List.mem_cons_of_mem c ha))

theorem pickleGo_missing {heap : Nat → Action} {init : List ((String × String) × List KeySeq)} :
    ∀ (l : List Nat) (db : List ((String × String) × List String)) (a : Nat),
      a ∈ l → dictLookup init (hashAction (heap a)) = none →
      pickleGo heap init db l = .error () := by
  intro l
  induction l with
  | nil => intro db a h _; exact absurd h (List.not_mem_nil a)
  | cons c rest ih =>
    intro db a hmem hnone
    rcases List.mem_cons.mp hmem with rfl | hr
    · exact pickleGo_cons_none hnone
    · cases hv : dictLookup init (hashAction (heap c)) with
      | none => exact pickleGo_cons_none hv
      | some v => rw [pickleGo_cons_some hv]; exact ih _ a hr hnone

theorem pickleGo_isSome {heap : Nat → Action} {init : List ((String × String) × List KeySeq)} :
    ∀ (l : List Nat) (db db2 : List ((String × String) × List String)),
      pickleGo heap init db l = .ok db2 → ∀ key,
      ((dictLookup db2 key).isSome = true ↔
        ((dictLookup db key).isSome = true ∨
          ∃ a ∈ l, hashAction (heap a) = key ∧
            dictLookup init key ≠ some ((heap a).shortcuts))) := by
  intro l
  induction l with
  | nil =>
    intro db db2 h key
    rw [pickleGo] at h
    cases h
    simp
  | cons c rest ih =>
    intro db db2 hrun key
    cases hv : dictLookup init (hashAction (heap c)) with
    | none =>
      rw [pickleGo_cons_none hv] at hrun
      exact absurd hrun (by simp)
    | some v =>
      rw [pickleGo_cons_some hv] at hrun
      rw [ih _ _ hrun key]
      simp only [List.mem_cons, exists_eq_or_imp]
      by_cases hkc : hashAction (heap c) = key
      · subst hkc
        by_cases hdif : (heap c).shortcuts ≠ v
        · rw [if_pos hdif, dictLookup_insert_self]
          have hrhs : dictLookup init (hashAction (heap c)) ≠ some ((heap c).shortcuts) := by
            rw [hv]
            intro he
            exact hdif (Option.some.injEq _ _ ▸ he.symm ▸ rfl)
          simp [hrhs]
        · rw [if_neg hdif]
          have hsc : (heap c).shortcuts = v := not_ne_iff.mp hdif
          have hnd : ¬ dictLookup init (hashAction (heap c)) ≠ some ((heap c).shortcuts) := by
            rw [hv, hsc]
            simp
          simp [hnd]
      · have hlook : dictLookup (if (heap c).shortcuts ≠ v then
              dictInsert db (hashAction (heap c)) (((heap c).shortcuts).map KeySeq.toString)
            else db) key = dictLookup db key := by
          split
          · exact dictLookup_insert_ne db _ (fun he => hkc he.symm)
          · rfl
        rw [hlook]
        simp [hkc]

theorem pickleGo_preserve {heap : Nat → Action} {init : List ((String × String) × List KeySeq)}
    {key : String × String} {w : List String} :
    ∀ (l : List Nat) (db db2 : List ((String × String) × List String)),
      pickleGo heap init db l = .ok db2 →
      (∀ a ∈ l, hashAction (heap a) = key → ((heap a).shortcuts).map KeySeq.toString = w) →
      dictLookup db key = some w → dictLookup db2 key = some w := by
  intro l
  induction l with
  | nil =>
    intro db db2 h _ hdb
    rw [pickleGo] at h
    cases h
    exact hdb
  | cons c rest ih =>
    intro db db2 hrun hall hdb
    cases hv : dictLookup init (hashAction (heap c)) with
    | none =>
      rw [pickleGo_cons_none hv] at hrun
      exact absurd hrun (by simp)
    | some v =>
      rw [pickleGo_cons_some hv] at hrun
      refine ih _ _ hrun (fun a ha hk => hall a (List.mem_cons_of_mem c ha) hk) ?_
      by_cases hkc : hashAction (heap c) = key
      · have hw : ((heap c).shortcuts).map KeySeq.toString = w :=
          hall c (List.mem_cons_self c rest) hkc
        split
        · rw [hkc, hw, dictLookup_insert_self]
        · exact hdb
      · split
        · rw [dictLookup_insert_ne db _ (fun he => hkc he.symm)]; exact hdb
        · exact hdb

theorem pickleGo_value {heap : Nat → Action} {init : List ((String × String) × List KeySeq)}
    {key : String × String} {w0 : List KeySeq} :
    ∀ (l : List Nat) (db db2 : List ((String × String) × List String)) (a : Nat),
      pickleGo heap init db l = .ok db2 → a ∈ l → hashAction (heap a) = key →
      (∀ b ∈ l, hashAction (heap b) = key → (heap b).shortcuts = (heap a).shortcuts) →
      dictLookup init key = some w0 → (heap a).shortcuts ≠ w0 →
      dictLookup db2 key = some (((heap a).shortcuts).map KeySeq.toString) := by
  intro l
  induction l with
  | nil => intro db db2 a _ hmem; exact absurd hmem (List.not_mem_nil a)
  | cons c rest ih =>
    intro db db2 a hrun hmem hka hsame hinit hdif
    cases hv : dictLookup init (hashAction (heap c)) with
    | none =>
      rw [pickleGo_cons_none hv] at hrun
      exact absurd hrun (by simp)
    | some v =>
      rw [pickleGo_cons_some hv] at hrun
      by_cases hkc : hashAction (heap c) = key
      · have hsc : (heap c).shortcuts = (heap a).shortcuts :=
          hsame c (List.mem_cons_self c rest) hkc
        have hveq : v = w0 := by
          rw [hkc, hinit] at hv
          exact (Option.some.injEq _ _ ▸ hv).symm
        have hdifc : (heap c).shortcuts ≠ v := by rw [hsc, hveq]; exact hdif
        rw [if_pos hdifc, hkc, hsc] at hrun
        refine pickleGo_preserve rest _ _ hrun
          (fun b hb hk => by rw [hsame b (List.mem_cons_of_mem c hb) hk]) ?_
        exact dictLookup_insert_self _ _ _
      · have hac : a ≠ c := fun he => hkc (he ▸ hka)
        have hmr : a ∈ rest := by
          rcases List.mem_cons.mp hmem with h1 | h1
          · exact absurd h1 hac
          · exact h1
        exact ih _ _ a hrun hmr hka
          (fun b hb hk => hsame b (List.mem_cons_of_mem c hb) hk) hinit hdif

theorem pickleGo_clean {heap : Nat → Action} {init : List ((String × String) × List KeySeq)}
    {key : String × String} :
    ∀ (l : List Nat) (db db2 : List ((String × String) × List String)),
      pickleGo heap init db l = .ok db2 →
      (∀ b ∈ l, hashAction (heap b) = key → dictLookup init key = some ((heap b).shortcuts)) →
      dictLookup db2 key = dictLookup db key := by
  intro l
  induction l with
  | nil =>
    intro db db2 h _
    rw [pickleGo] at h
    cases h
    rfl
  | cons c rest ih =>
    intro db db2 hrun hall
    cases hv : dictLookup init (hashAction (heap c)) with
    | none =>
      rw [pickleGo_cons_none hv] at hrun
      exact absurd hrun (by simp)
    | some v =>
      rw [pickleGo_cons_some hv] at hrun
      by_cases hkc : hashAction (heap c) = key
      · have hvc : v = (heap c).shortcuts := by
          have := hall c (List.mem_cons_self c rest) hkc
          rw [hkc, this] at hv
          exact (Option.some.injEq _ _ ▸ hv).symm
        have hnd : ¬ (heap c).shortcuts ≠ v := by rw [hvc]; simp
        rw [if_neg hnd] at hrun
        exact ih _ _ hrun (fun b hb hk => hall b (List.mem_cons_of_mem c hb) hk)
      · have hstep := ih _ _ hrun (fun b hb hk => hall b (List.mem_cons_of_mem c hb) hk)
        rw [hstep]
        split
        · exact dictLookup_insert_ne db _ (fun he => hkc he.symm)
        · rfl

/-- Source `unpickle` (lines 250-257): for each given action, look its
identity up in `db` and apply the stored bindings with `setShortcuts`; a
missing entry is swallowed (`except KeyError: pass`), so the loop is total. -/
def unpickle (heap : Nat → Action) (actions : List Nat)
    (db : List ((String × String) × List String)) : Nat → Action :=
  match actions with
  | [] => heap
  | a :: rest => unpickle (unpickleStep heap db a) rest db

/-- Effect of `a.setShortcuts(v)` described as a function of the optional
`db` entry: `none` models the swallowed `KeyError` (action unchanged). -/
def applyRestore (act : Action) : Option (List String) → Action
  | some v => { act with shortcuts := v.map KeySeq.mk }
  | none => act

theorem hashAction_applyRestore (act : Action) (o : Option (List String)) :
    hashAction (applyRestore act o) = hashAction act := by
  cases o <;> rfl

theorem applyRestore_applyRestore (act : Action) (o : Option (List String)) :
    applyRestore (applyRestore act o) o = applyRestore act o := by
  cases o <;> rfl

theorem unpickleStep_self (heap : Nat → Action) (db : List ((String × String) × List String))
    (a : Nat) : unpickleStep heap db a a = applyRestore (heap a) (dictLookup db (hashAction (heap a))) := by
  unfold unpickleStep applyRestore
  cases dictLookup db (hashAction (heap a)) <;> simp

theorem unpickleStep_other (heap : Nat → Action) (db : List ((String × String) × List String))
    {a n : Nat} (h : n ≠ a) : unpickleStep heap db a n = heap n := by
  unfold unpickleStep
  cases dictLookup db (hashAction (heap a)) <;> simp [h]

theorem unpickle_not_mem (db : List ((String × String) × List String)) :
    ∀ (actions : List Nat) (heap : Nat → Action) {aid : Nat}, aid ∉ actions →
      unpickle heap actions db aid = heap aid := by
  intro actions
  induction actions with
  | nil => intro heap aid _; rfl
  | cons a rest ih =>
    intro heap aid h
    have hne : aid ≠ a := fun he => h (he ▸ List.mem_cons_self a rest)
    have hrest : aid ∉ rest := fun hm => h (List.mem_cons_of_mem a hm)
    rw [unpickle, ih _ hrest, unpickleStep_other _ _ hne]

theorem unpickle_mem (db : List ((String × String) × List String)) :
    ∀ (actions : List Nat) (heap : Nat → Action) {aid : Nat}, aid ∈ actions →
      unpickle heap actions db aid
        = applyRestore (heap aid) (dictLookup db (hashAction (heap aid))) := by
  intro actions
  induction actions with
  | nil => intro heap aid h; exact absurd h (List.not_mem_nil aid)
  | cons a rest ih =>
    intro heap aid h
    by_cases hmem : aid ∈ rest
    · rw [unpickle, ih _ hmem]
      by_cases hne : aid = a
      · subst hne
        rw [unpickleStep_self, hashAction_applyRestore, applyRestore_applyRestore]
      · rw [unpickleStep_other _ _ hne]
    · have ha : aid = a := by
        rcases List.mem_cons.mp h with h1 | h1
        · exact h1
        · exact absurd h1 hmem
      subst ha
      rw [unpickle, unpickle_not_mem _ _ _ hmem, unpickleStep_self]

theorem not_keyLe_imp_key_ne {heap : Nat → Action} {a b : Nat}
    (h : ¬ shortcutKeyLe heap a b) : actKey heap b ≠ actKey heap a := by
  intro he
  exact h (lexLe_of_eq he.symm)

theorem filter_orderedInsert_pos {heap : Nat → Action} {k : List String} {a : Nat}
    (ha : actKey heap a = k) : ∀ l : List Nat,
    (List.orderedInsert (shortcutKeyLe heap) a l).filter (fun b => decide (actKey heap b = k))
      = a :: l.filter (fun b => decide (actKey heap b = k)) := by
  intro l
  induction l with
  | nil => simp [List.orderedInsert, ha]
  | cons b bs ih =>
    by_cases hr : shortcutKeyLe heap a b
    · simp [List.orderedInsert, hr, List.filter_cons, ha]
    · have hkb : ¬ actKey heap b = k := fun he => not_keyLe_imp_key_ne hr (ha ▸ he)
      simp [List.orderedInsert, hr, List.filter_cons, hkb, ih]

theorem filter_orderedInsert_neg {heap : Nat → Action} {k : List String} {a : Nat}
    (ha : ¬ actKey heap a = k) : ∀ l : List Nat,
    (List.orderedInsert (shortcutKeyLe heap) a l).filter (fun b => decide (actKey heap b = k))
      = l.filter (fun b => decide (actKey heap b = k)) := by
  intro l
  induction l with
  | nil => simp [List.orderedInsert, ha]
  | cons b bs ih =>
    by_cases hr : shortcutKeyLe heap a b
    · simp [List.orderedInsert, hr, List.filter_cons, ha]
    · simp [List.orderedInsert, hr, List.filter_cons, ih]

theorem filter_insertionSort (heap : Nat → Action) (k : List String) :
    ∀ l : List Nat,
    (List.insertionSort (shortcutKeyLe heap) l).filter (fun b => decide (actKey heap b = k))
      = l.filter (fun b => decide (actKey heap b = k)) := by
  intro l
  induction l with
  | nil => rfl
  | cons a l ih =>
    rw [List.insertionSort]
    by_cases ha : actKey heap a = k
    · rw [filter_orderedInsert_pos ha, ih, List.filter_cons, if_pos (by simp [ha])]
    · rw [filter_orderedInsert_neg ha, ih, List.filter_cons, if_neg (by simp [ha])]

theorem ms_busy {st : EditorState} (row column : Nat)
    (h : st.currently_modifying.isSome = true) :
    modify_shortcut st row column = .ok st := by
  unfold modify_shortcut
  by_cases hc : column = columns.indexOf ("Description")
  · rw [if_pos hc]
  · rw [if_neg hc, if_pos h]

theorem ms_start {st : EditorState} {row column aid : Nat}
    (hnone : st.currently_modifying = none)
    (hcol : column ≠ columns.indexOf ("Description"))
    (hrow : st.actions[row]? = some aid) :
    modify_shortcut st row column
      = .ok { st with
              currently_modifying := some (aid, column - columns.indexOf ("Shortcut")) } := by
  unfold modify_shortcut
  rw [if_neg hcol, hnone]
  simp [hrow]

theorem mse_parts {st st2 : EditorState} {new_short : KeySeq} {a p : Nat}
    (hcm : st.currently_modifying = some (a, p))
    (hmod : modify_shortcut_end st new_short = Except.ok st2) :
    st2.heap a = { st.heap a with shortcuts := rebindList (st.heap a).shortcuts p new_short }
    ∧ (∀ n, n ≠ a → st2.heap n = st.heap n)
    ∧ st2.currently_modifying = none
    ∧ st2.children = st.children
    ∧ st2.display_all = st.display_all
    ∧ st2.initial_shortcuts = st.initial_shortcuts
    ∧ st2.actions = prepare_actions st2.heap st.children st.display_all := by
  have hx : modify_shortcut_end st new_short = Except.ok
      { st with
          heap := fun n =>
            if n = a then { st.heap a with shortcuts := rebindList (st.heap a).shortcuts p new_short }
            else st.heap n
          actions := prepare_actions
            (fun n =>
              if n = a then { st.heap a with shortcuts := rebindList (st.heap a).shortcuts p new_short }
              else st.heap n)
            st.children st.display_all
          currently_modifying := none } := by
    unfold modify_shortcut_end
    rw [hcm]
  rw [hx] at hmod
  simp only [Except.ok.injEq] at hmod
  subst hmod
  refine ⟨by simp, fun n hn => by simp [hn], rfl, rfl, rfl, rfl, rfl⟩

theorem mse_none {st : EditorState} {new_short : KeySeq}
    (h : st.currently_modifying = none) :
    modify_shortcut_end st new_short = .error () := by
  unfold modify_shortcut_end
  rw [h]

/-! Concrete fixtures used by the witnesses below. -/

/-- One-action gui: identity 0 carries the `Quit` action with one shortcut. -/
def exHeap : Nat → Action := fun n =>
  if n = 0 then { toolTip := "Quit", statusTip := "Quit the app", shortcuts := [⟨"Ctrl+Q"⟩] }
  else { toolTip := "", statusTip := "", shortcuts := [] }

/-- Editor over `exHeap` with an edit of action 0, position 0, in progress. -/
def exSt : EditorState :=
  { heap := exHeap, children := [0], display_all := false, actions := [0],
    initial_shortcuts := initial_snapshot exHeap [0],
    currently_modifying := some (0, 0) }

/-- State after completing the edit of `exSt` with the new sequence `F5`. -/
def exSt2 : EditorState :=
  { heap := fun n =>
      if n = 0 then { toolTip := "Quit", statusTip := "Quit the app", shortcuts := [⟨"F5"⟩] }
      else exHeap n,
    children := [0], display_all := false, actions := [0],
    initial_shortcuts := initial_snapshot exHeap [0],
    currently_modifying := none }

/-- `exSt2` with a second edit of action 0, position 0, in progress. -/
def exT : EditorState := { exSt2 with currently_modifying := some (0, 0) }

/-- State after completing the edit of `exT` with the original `Ctrl+Q`. -/
def exT2 : EditorState :=
  { heap := fun n =>
      if n = 0 then { toolTip := "Quit", statusTip := "Quit the app", shortcuts := [⟨"Ctrl+Q"⟩] }
      else exSt2.heap n,
    children := [0], display_all := false, actions := [0],
    initial_shortcuts := initial_snapshot exHeap [0],
    currently_modifying := none }

/-- Gui whose only action has a shortcut but an empty tooltip: it is listed by
`_all_actions` (editor, checkbox off) yet absent from the baseline snapshot. -/
def noBaseHeap : Nat → Action := fun n =>
  if n = 0 then { toolTip := "", statusTip := "", shortcuts := [⟨"F1"⟩] }
  else { toolTip := "", statusTip := "", shortcuts := [] }

/-- Editor state over `noBaseHeap` right after `_prepare`. -/
def noBaseState : EditorState :=
  { heap := noBaseHeap, children := [0], display_all := false,
    actions := prepare_actions noBaseHeap [0] false,
    initial_shortcuts := initial_snapshot noBaseHeap [0],
    currently_modifying := none }

/-- Gui with two distinct actions sharing tooltip and status tip. -/
def collideHeap : Nat → Action := fun n =>
  if n = 0 then { toolTip := "Save", statusTip := "Save the file", shortcuts := [⟨"Ctrl+S"⟩] }
  else if n = 1 then { toolTip := "Save", statusTip := "Save the file", shortcuts := [⟨"F2"⟩] }
  else { toolTip := "", statusTip := "", shortcuts := [] }

/-- Heap with one action without shortcuts, for the sort witnesses. -/
def emptyKeyHeap : Nat → Action := fun n =>
  if n = 0 then { toolTip := "Lonely", statusTip := "No shortcut here", shortcuts := [] }
  else { toolTip := "", statusTip := "", shortcuts := [] }

/-- Claim C1, counterexample.  In `noBaseState` the single known action (id 0)
has no baseline entry, and `pickle` raises `KeyError`
(`self._initial_shortcuts[h]`, line 246, has no `try`), instead of ignoring
the action as the claim states. -/
theorem claim_C1_counterexample :
    noBaseState.actions = [0]
    ∧ dictLookup noBaseState.initial_shortcuts (hashAction (noBaseState.heap 0)) = none
    ∧ pickle noBaseState = Except.error () :=
  ⟨rfl, rfl, rfl⟩

/-- Claim C1, amended.  When every known action has a baseline entry, `pickle`
succeeds and its output contains an identity iff some known action with that
identity has a live binding list differing from the baseline entry; when some
known action has no baseline entry, `pickle` fails with a lookup error instead
of ignoring it. -/
theorem claim_C1_diff_membership (st : EditorState) :
    ((∀ a ∈ st.actions,
        (dictLookup st.initial_shortcuts (hashAction (st.heap a))).isSome = true) →
      ∃ db, pickle st = Except.ok db ∧
        ∀ key, (dictLookup db key).isSome = true ↔
          ∃ a ∈ st.actions, hashAction (st.heap a) = key ∧
            dictLookup st.initial_shortcuts key ≠ some ((st.heap a).shortcuts))
    ∧ (∀ a ∈ st.actions, dictLookup st.initial_shortcuts (hashAction (st.heap a)) = none →
        pickle st = Except.error ()) := by
  constructor
  · intro h
    obtain ⟨db, hdb⟩ := pickleGo_ok st.actions [] h
    refine ⟨db, hdb, fun key => ?_⟩
    have hiff := pickleGo_isSome st.actions [] db hdb key
    simpa [dictLookup] using hiff
  · intro a ha hnone
    exact pickleGo_missing st.actions [] a ha hnone

/-- Claim C1 witness at a concrete state (one action, baseline present). -/
theorem claim_C1_diff_membership_witness :
    (∀ a ∈ exSt2.actions,
      (dictLookup exSt2.initial_shortcuts (hashAction (exSt2.heap a))).isSome = true)
    ∧ (∃ db, pickle exSt2 = Except.ok db ∧
        ∀ key, (dictLookup db key).isSome = true ↔
          ∃ a ∈ exSt2.actions, hashAction (exSt2.heap a) = key ∧
            dictLookup exSt2.initial_shortcuts key ≠ some ((exSt2.heap a).shortcuts)) :=
  ⟨by decide, (claim_C1_diff_membership exSt2).1 (by decide)⟩

/-- Claim C2.  `_uniq_sort` returns a list sorted ascending by the list of
string forms of each action's bindings (primary first, then alternates); the
sort is stable over the deduplicated candidate list (each key class keeps its
relative order); and actions without any shortcut come first (an action with
an empty binding list is never preceded by one with a non-empty list). -/
theorem claim_C2_sorted_stable (heap : Nat → Action) (l : List Nat) :
    List.Sorted (shortcutKeyLe heap) (uniq_sort heap l)
    ∧ (∀ k : List String,
        (uniq_sort heap l).filter (fun b => decide (actKey heap b = k))
          = l.dedup.filter (fun b => decide (actKey heap b = k)))
    ∧ (∀ i j actI actJ : Nat, i ≤ j →
        (uniq_sort heap l)[i]? = some actI → (uniq_sort heap l)[j]? = some actJ →
        (heap actJ).shortcuts = [] → (heap actI).shortcuts = []) := by
  refine ⟨List.sorted_insertionSort _ _, fun k => filter_insertionSort heap k l.dedup, ?_⟩
  intro i j actI actJ hij hgI hgJ hempty
  by_cases heq : i = j
  · subst heq
    rw [hgI] at hgJ
    cases hgJ
    exact hempty
  · have hlt : i < j := lt_of_le_of_ne hij heq
    obtain ⟨hi, hieq⟩ := List.getElem?_eq_some.mp hgI
    obtain ⟨hj, hjeq⟩ := List.getElem?_eq_some.mp hgJ
    have hrel := List.pairwise_iff_get.mp
      (List.sorted_insertionSort (shortcutKeyLe heap) l.dedup)
      ⟨i, hi⟩ ⟨j, hj⟩ (Fin.mk_lt_mk.mpr hlt)
    simp only [List.get_eq_getElem, Fin.val_mk] at hrel
    have hrel2 : shortcutKeyLe heap actI actJ := by
      rw [show (List.insertionSort (shortcutKeyLe heap) l.dedup)[i] = actI from hieq,
          show (List.insertionSort (shortcutKeyLe heap) l.dedup)[j] = actJ from hjeq] at hrel
      exact hrel
    have hkeyj : actKey heap actJ = [] := by
      unfold actKey
      rw [hempty]
      exact List.map_nil
    have hkeyi : actKey heap actI = [] := lexLe_nil_right (hkeyj ▸ hrel2)
    exact List.map_eq_nil_iff.mp hkeyi

/-- Claim C2 witness: the no-shortcut action of `emptyKeyHeap` at positions
0 ≤ 0 of the sorted list. -/
theorem claim_C2_sorted_stable_witness :
    (uniq_sort emptyKeyHeap [0, 0])[0]? = some 0
    ∧ (emptyKeyHeap 0).shortcuts = []
    ∧ (emptyKeyHeap 0).shortcuts = [] :=
  ⟨by decide, by decide,
    (claim_C2_sorted_stable emptyKeyHeap [0, 0]).2.2 0 0 0 0 (le_refl 0)
      (by decide) (by decide) (by decide)⟩

/-- Claim C8.  `_uniq_sort` removes reference-duplicates: the displayed list
has no duplicate references, an action reference occurring in the candidate
list (possibly several times, e.g. reachable via two menus) occurs exactly
once in the result, and no other references appear. -/
theorem claim_C8_dedup (heap : Nat → Action) (l : List Nat) (a : Nat) :
    (uniq_sort heap l).Nodup
    ∧ (a ∈ l → (uniq_sort heap l).count a = 1)
    ∧ (a ∈ uniq_sort heap l ↔ a ∈ l) := by
  unfold uniq_sort
  have hperm := List.perm_insertionSort (shortcutKeyLe heap) l.dedup
  refine ⟨hperm.nodup_iff.mpr (List.nodup_dedup l), fun ha => ?_, ?_⟩
  · rw [hperm.count_eq, List.count_dedup, if_pos ha]
  · rw [hperm.mem_iff, List.mem_dedup]

/-- Claim C8 witness: the duplicated reference 0 appears exactly once after
`_uniq_sort`. -/
theorem claim_C8_dedup_witness :
    (0 ∈ [0, 0]) ∧ (uniq_sort exHeap [0, 0]).count 0 = 1 :=
  ⟨by decide, (claim_C8_dedup exHeap [0, 0] 0).2.1 (by decide)⟩

/-- Claim C3.  Rebind then diff: completing an edit of action `a` at position
`p` makes its bindings `rebindList old p newk`; if that list differs from the
baseline entry (and every listed action with the same identity carries the
same bindings, and all baseline entries exist), `pickle` succeeds and maps the
action's identity to the new full string-form list.  Conversely, completing an
edit that brings every listed action of that identity back to exactly its
baseline bindings removes the identity from the diff output. -/
theorem claim_C3_rebind_then_diff (st st2 t t2 : EditorState) (a p b q : Nat)
    (newk rev : KeySeq) :
    (st.currently_modifying = some (a, p) →
      modify_shortcut_end st newk = Except.ok st2 →
      (∀ c ∈ st2.actions,
        (dictLookup st2.initial_shortcuts (hashAction (st2.heap c))).isSome = true) →
      a ∈ st2.actions →
      (∀ c ∈ st2.actions, hashAction (st2.heap c) = hashAction (st2.heap a) →
        (st2.heap c).shortcuts = (st2.heap a).shortcuts) →
      dictLookup st2.initial_shortcuts (hashAction (st2.heap a))
        ≠ some ((st2.heap a).shortcuts) →
      ∃ db, pickle st2 = Except.ok db
        ∧ dictLookup db (hashAction (st2.heap a))
            = some (((st2.heap a).shortcuts).map KeySeq.toString)
        ∧ (st2.heap a).shortcuts = rebindList (st.heap a).shortcuts p newk)
    ∧ (t.currently_modifying = some (b, q) →
      modify_shortcut_end t rev = Except.ok t2 →
      (∀ c ∈ t2.actions,
        (dictLookup t2.initial_shortcuts (hashAction (t2.heap c))).isSome = true) →
      (∀ c ∈ t2.actions, hashAction (t2.heap c) = hashAction (t2.heap b) →
        dictLookup t2.initial_shortcuts (hashAction (t2.heap b))
          = some ((t2.heap c).shortcuts)) →
      ∃ db, pickle t2 = Except.ok db
        ∧ dictLookup db (hashAction (t2.heap b)) = none) := by
  constructor
  · intro hcm hmod htotal hmem hsame hdiff
    obtain ⟨hheapa, _, _, _, _, _, _⟩ := mse_parts hcm hmod
    obtain ⟨db, hdb⟩ := pickleGo_ok st2.actions [] htotal
    obtain ⟨w0, hw0⟩ := Option.isSome_iff_exists.mp (htotal a hmem)
    have hneq : (st2.heap a).shortcuts ≠ w0 := by
      intro he
      exact hdiff (by rw [hw0, he])
    refine ⟨db, hdb, ?_, by rw [hheapa]⟩
    exact pickleGo_value st2.actions [] db a hdb hmem rfl hsame hw0 hneq
  · intro hcm hmod htotal hclean
    obtain ⟨db, hdb⟩ := pickleGo_ok t2.actions [] htotal
    refine ⟨db, hdb, ?_⟩
    have hc := @pickleGo_clean t2.heap t2.initial_shortcuts (hashAction (t2.heap b))
      t2.actions [] db hdb (fun c hc2 hk => hclean c hc2 hk)
    simpa [dictLookup] using hc

/-- Claim C3 witness: rebinding `Ctrl+Q` to `F5` puts `Quit` in the diff with
value `["F5"]`; rebinding back to `Ctrl+Q` removes it. -/
theorem claim_C3_rebind_then_diff_witness :
    exSt.currently_modifying = some (0, 0)
    ∧ (∃ db, pickle exSt2 = Except.ok db
        ∧ dictLookup db (hashAction (exSt2.heap 0))
            = some (((exSt2.heap 0).shortcuts).map KeySeq.toString)
        ∧ (exSt2.heap 0).shortcuts = rebindList (exSt.heap 0).shortcuts 0 ⟨"F5"⟩)
    ∧ exT.currently_modifying = some (0, 0)
    ∧ (∃ db, pickle exT2 = Except.ok db
        ∧ dictLookup db (hashAction (exT2.heap 0)) = none) := by
  refine ⟨rfl, ?_, rfl, ?_⟩
  · exact (claim_C3_rebind_then_diff exSt exSt2 exT exT2 0 0 0 0 ⟨"F5"⟩ ⟨"Ctrl+Q"⟩).1
      rfl rfl (by decide) (by decide) (by decide) (by decide)
  · exact (claim_C3_rebind_then_diff exSt exSt2 exT exT2 0 0 0 0 ⟨"F5"⟩ ⟨"Ctrl+Q"⟩).2
      rfl rfl (by decide) (by decide)

/-- Claim C4.  Completing a rebind of the action in edit at ordinal position
`p` with captured sequence `newk`: if `p` is within the current binding list,
the entry at `p` is replaced by `newk` (same length, other entries unchanged);
if `p` is beyond the end, `newk` is appended; the result is the action's new
binding list. -/
theorem claim_C4_rebind_replace_or_append (st st2 : EditorState) (a p : Nat)
    (newk : KeySeq)
    (hcm : st.currently_modifying = some (a, p))
    (hmod : modify_shortcut_end st newk = Except.ok st2) :
    (p < (st.heap a).shortcuts.length →
      ((st2.heap a).shortcuts.length = (st.heap a).shortcuts.length
       ∧ ((st2.heap a).shortcuts)[p]? = some newk
       ∧ ∀ i : Nat, i ≠ p →
           ((st2.heap a).shortcuts)[i]? = ((st.heap a).shortcuts)[i]?))
    ∧ ((st.heap a).shortcuts.length ≤ p →
      (st2.heap a).shortcuts = (st.heap a).shortcuts ++ [newk]) := by
  obtain ⟨hheapa, _, _, _, _, _, _⟩ := mse_parts hcm hmod
  have hsc : (st2.heap a).shortcuts = rebindList (st.heap a).shortcuts p newk := by
    rw [hheapa]
  constructor
  · intro hp
    rw [hsc, rebindList, if_pos hp]
    exact ⟨List.length_set _ _ _, List.getElem?_set_self hp,
      fun i hi => List.getElem?_set_ne (fun he => hi he.symm)⟩
  · intro hp
    rw [hsc, rebindList, if_neg (not_lt.mpr hp)]

/-- Claim C4 witness: replacing position 0 of the one-element binding list. -/
theorem claim_C4_rebind_replace_or_append_witness :
    0 < (exSt.heap 0).shortcuts.length
    ∧ ((exSt2.heap 0).shortcuts.length = (exSt.heap 0).shortcuts.length
       ∧ ((exSt2.heap 0).shortcuts)[0]? = some ⟨"F5"⟩
       ∧ ∀ i : Nat, i ≠ 0 →
           ((exSt2.heap 0).shortcuts)[i]? = ((exSt.heap 0).shortcuts)[i]?) :=
  ⟨by decide,
    (claim_C4_rebind_replace_or_append exSt exSt2 0 0 ⟨"F5"⟩ rfl rfl).1 (by decide)⟩

/-- Claim C5.  The single-slot edit state: a double-click while an edit is in
progress leaves the editor state unchanged; completing an edit clears the
slot back to `None`; and an accepted double-click records exactly one
(action, position) entry in the slot. -/
theorem claim_C5_single_slot (st t t2 u : EditorState) (row column row2 column2 aid : Nat)
    (newk : KeySeq) :
    (st.currently_modifying.isSome = true →
      modify_shortcut st row column = Except.ok st)
    ∧ (modify_shortcut_end t newk = Except.ok t2 → t2.currently_modifying = none)
    ∧ (u.currently_modifying = none → column2 ≠ columns.indexOf ("Description") →
      u.actions[row2]? = some aid →
      modify_shortcut u row2 column2
        = Except.ok { u with
            currently_modifying := some (aid, column2 - columns.indexOf ("Shortcut")) }) := by
  refine ⟨fun h => ms_busy row column h, ?_, ms_start⟩
  intro hmod
  cases hcm : t.currently_modifying with
  | none =>
    rw [mse_none hcm] at hmod
    exact absurd hmod (by simp)
  | some pr =>
    obtain ⟨a2, p2⟩ := pr
    exact (mse_parts hcm hmod).2.2.1

/-- Claim C5 witness: a second double-click on the busy `exSt` is ignored, the
completed edit `exSt2` has an empty slot, and a double-click on idle `exSt2`
records `(0, 1 - 0)`. -/
theorem claim_C5_single_slot_witness :
    exSt.currently_modifying.isSome = true
    ∧ modify_shortcut exSt 0 1 = Except.ok exSt
    ∧ exSt2.currently_modifying = none
    ∧ modify_shortcut exSt2 0 1
        = Except.ok { exSt2 with
            currently_modifying := some (0, 1 - columns.indexOf ("Shortcut")) } := by
  have h := claim_C5_single_slot exSt exSt exSt2 exSt2 0 1 0 1 0 ⟨"F5"⟩
  exact ⟨rfl, h.1 rfl, h.2.1 rfl, h.2.2 rfl (by decide) (by decide)⟩

/-- Claim C6.  `unpickle` over a list of live actions: an action whose
identity is in the mapping gets the mapped bindings applied
(`setShortcuts`, strings converted back to key sequences); an action whose
identity is absent keeps its bindings (the `KeyError` is swallowed); actions
not in the list are untouched.  `unpickle` is total, so no error escapes. -/
theorem claim_C6_restore (heap : Nat → Action) (actions : List Nat)
    (db : List ((String × String) × List String)) (aid : Nat) :
    (∀ v, aid ∈ actions → dictLookup db (hashAction (heap aid)) = some v →
      unpickle heap actions db aid = { heap aid with shortcuts := v.map KeySeq.mk })
    ∧ (aid ∈ actions → dictLookup db (hashAction (heap aid)) = none →
      unpickle heap actions db aid = heap aid)
    ∧ (aid ∉ actions → unpickle heap actions db aid = heap aid) := by
  refine ⟨fun v hm hl => ?_, fun hm hl => ?_, fun hm => unpickle_not_mem db actions heap hm⟩
  · rw [unpickle_mem db actions heap hm, hl]
    rfl
  · rw [unpickle_mem db actions heap hm, hl]
    rfl

/-- Claim C6 witness: the `Quit` action receives `["F9", "F10"]` from the
mapping; with an empty mapping it is unchanged. -/
theorem claim_C6_restore_witness :
    (0 ∈ [0]
     ∧ dictLookup [(("Quit", "Quit the app"), ["F9", "F10"])]
         (hashAction (exHeap 0)) = some ["F9", "F10"]
     ∧ unpickle exHeap [0] [(("Quit", "Quit the app"), ["F9", "F10"])] 0
         = { exHeap 0 with shortcuts := (["F9", "F10"]).map KeySeq.mk })
    ∧ (dictLookup ([] : List ((String × String) × List String))
         (hashAction (exHeap 0)) = none
       ∧ unpickle exHeap [0] [] 0 = exHeap 0) := by
  constructor
  · exact ⟨by decide, by decide,
      (claim_C6_restore exHeap [0] [(("Quit", "Quit the app"), ["F9", "F10"])] 0).1
        (["F9", "F10"]) (by decide) (by decide)⟩
  · exact ⟨rfl,
      (claim_C6_restore exHeap [0] [] 0).2.1 (by decide) rfl⟩

/-- Claim C7.  Restore is idempotent: applying `unpickle` with the same
mapping twice yields the same bindings on every action (every heap identity)
as applying it once. -/
theorem claim_C7_restore_idempotent (heap : Nat → Action) (actions : List Nat)
    (db : List ((String × String) × List String)) (aid : Nat) :
    unpickle (unpickle heap actions db) actions db aid = unpickle heap actions db aid := by
  by_cases hm : aid ∈ actions
  · rw [unpickle_mem db actions (unpickle heap actions db) hm,
      unpickle_mem db actions heap hm, hashAction_applyRestore, applyRestore_applyRestore]
  · rw [unpickle_not_mem db actions (unpickle heap actions db) hm,
      unpickle_not_mem db actions heap hm]

/-- Claim C9.  The diff/restore identity is exactly `(toolTip, statusTip)`:
two distinct actions sharing both texts share the identity; the baseline
snapshot then keeps a single entry for them (the later action overwrites the
earlier); and on restore both receive the bindings stored under that one
identity. -/
theorem claim_C9_identity_collision (heap : Nat → Action) (x y : Nat)
    (db : List ((String × String) × List String)) (v : List String)
    (hxy : x ≠ y)
    (ht : (heap x).toolTip = (heap y).toolTip)
    (hs : (heap x).statusTip = (heap y).statusTip) :
    hashAction (heap x) = hashAction (heap y)
    ∧ ((heap x).toolTip.length > 0 →
        initial_snapshot heap [x, y] = [(hashAction (heap x), (heap y).shortcuts)])
    ∧ (dictLookup db (hashAction (heap x)) = some v →
        (unpickle heap [x, y] db x).shortcuts = v.map KeySeq.mk
        ∧ (unpickle heap [x, y] db y).shortcuts = v.map KeySeq.mk) := by
  have hh : hashAction (heap x) = hashAction (heap y) := by
    unfold hashAction
    rw [ht, hs]
  refine ⟨hh, fun htt => ?_, fun hl => ?_⟩
  · have htty : (heap y).toolTip.length > 0 := ht ▸ htt
    have hfil : List.filter (fun a2 => decide ((heap a2).toolTip.length > 0)) [x, y]
        = [x, y] := by
      rw [List.filter_cons, if_pos (by simpa using htt),
        List.filter_cons, if_pos (by simpa using htty)]
      rfl
    unfold initial_snapshot
    rw [hfil]
    simp [List.foldl, dictInsert, hh]
  · constructor
    · rw [unpickle_mem db [x, y] heap (by simp), hl]
      rfl
    · rw [unpickle_mem db [x, y] heap (by simp), ← hh, hl]
      rfl

/-- Claim C9 witness: the two `Save` actions of `collideHeap` collide and both
receive `["F8"]` on restore. -/
theorem claim_C9_identity_collision_witness :
    ((collideHeap 0).toolTip = (collideHeap 1).toolTip
     ∧ (collideHeap 0).statusTip = (collideHeap 1).statusTip)
    ∧ hashAction (collideHeap 0) = hashAction (collideHeap 1)
    ∧ initial_snapshot collideHeap [0, 1]
        = [(hashAction (collideHeap 0), (collideHeap 1).shortcuts)]
    ∧ ((unpickle collideHeap [0, 1] [(("Save", "Save the file"), ["F8"])] 0).shortcuts
          = (["F8"]).map KeySeq.mk
       ∧ (unpickle collideHeap [0, 1] [(("Save", "Save the file"), ["F8"])] 1).shortcuts
          = (["F8"]).map KeySeq.mk) := by
  have h := claim_C9_identity_collision collideHeap 0 1
    [(("Save", "Save the file"), ["F8"])] (["F8"]) (by decide) rfl rfl
  exact ⟨⟨rfl, rfl⟩, h.1, h.2.1 (by decide), h.2.2 (by decide)⟩

/-- Claim C10.  A completed rebind is frame-preserving: every other action is
completely unchanged, the edited action keeps its tooltip and status tip, and
every binding position other than the edited (or appended) one keeps its
previous value. -/
theorem claim_C10_rebind_frame (st st2 : EditorState) (a p : Nat) (newk : KeySeq)
    (hcm : st.currently_modifying = some (a, p))
    (hmod : modify_shortcut_end st newk = Except.ok st2) :
    (∀ n, n ≠ a → st2.heap n = st.heap n)
    ∧ (st2.heap a).toolTip = (st.heap a).toolTip
    ∧ (st2.heap a).statusTip = (st.heap a).statusTip
    ∧ (∀ i : Nat,
        i ≠ (if p < (st.heap a).shortcuts.length then p else (st.heap a).shortcuts.length) →
        ((st2.heap a).shortcuts)[i]? = ((st.heap a).shortcuts)[i]?) := by
  obtain ⟨hheapa, hother, _⟩ := mse_parts hcm hmod
  refine ⟨hother, by rw [hheapa], by rw [hheapa], ?_⟩
  intro i hi
  rw [hheapa]
  show (rebindList (st.heap a).shortcuts p newk)[i]? = ((st.heap a).shortcuts)[i]?
  unfold rebindList
  by_cases hp : p < (st.heap a).shortcuts.length
  · rw [if_pos hp] at hi
    rw [if_pos hp]
    exact List.getElem?_set_ne (fun he => hi he.symm)
  · rw [if_neg hp] at hi
    rw [if_neg hp]
    rcases lt_trichotomy i (st.heap a).shortcuts.length with h | h | h
    · rw [List.getElem?_append, if_pos h]
    · exact absurd h hi
    · rw [List.getElem?_eq_none (l := (st.heap a).shortcuts) (le_of_lt h),
        List.getElem?_eq_none]
      rw [List.length_append]
      simpa using h

/-- Claim C10 witness: rebinding position 0 of `Quit` leaves all other heap
identities and both text fields unchanged. -/
theorem claim_C10_rebind_frame_witness :
    (∀ n, n ≠ 0 → exSt2.heap n = exSt.heap n)
    ∧ (exSt2.heap 0).toolTip = (exSt.heap 0).toolTip
    ∧ (exSt2.heap 0).statusTip = (exSt.heap 0).statusTip
    ∧ (∀ i : Nat,
        i ≠ (if 0 < (exSt.heap 0).shortcuts.length then 0 else (exSt.heap 0).shortcuts.length) →
        ((exSt2.heap 0).shortcuts)[i]? = ((exSt.heap 0).shortcuts)[i]?) :=
  claim_C10_rebind_frame exSt exSt2 0 0 ⟨"F5"⟩ rfl rfl

end QShortcutEditor
